import Mathlib

/-!
# A verification model of the `pile` project catalog

This file gives a shallow embedding of the core of `src/lib.rs`: the
project store (an SQLite table `projects (id, name text unique, tags text)`),
the `Project` entity (name normalization, tag join/split), and the catalog
operations (`add_project`, `remove_project`, `get_project_path`, `edit`,
`Project::fetch_from_db`).

Modelling conventions:
* Rust `String` values are modelled as `List Char` (`Str`).
* The SQLite table is a list of rows `(name, tags)` where `tags` is the raw
  stored text of the `tags` column.  The filesystem is modelled as the list
  of directory names that exist under the workspace root; paths are
  workspace-relative, so a project's path is its directory name.
* Fallible operations return an `Except` paired with the post-state, so a
  state mutated before an error is visible in the result.
* SQLite's `LIKE` is modelled by `likeMatch` (`%`/`_` wildcards, other
  characters compared after ASCII lowercasing, which is SQLite's default
  case folding for `LIKE`), and `ORDER BY name COLLATE NOCASE ASC` by a
  merge sort on the ASCII-lowercased name.
-/

namespace Pile

/-- Rust strings are modelled as lists of characters. -/
abbrev Str := List Char

/-- SQLite's default case folding for `LIKE` and `COLLATE NOCASE`:
ASCII upper-case letters are mapped to lower case, everything else kept. -/
def asciiLower (c : Char) : Char :=
  if 'A' ≤ c ∧ c ≤ 'Z' then Char.ofNat (c.toNat + 32) else c

/-- ASCII case folding of a whole string. -/
def fold (s : Str) : Str := s.map asciiLower

/-- Rust `char::is_whitespace` (the Unicode `White_Space` property),
used by `str::trim` in `Project::new` and `Project::edit_name`. -/
def isRustWs (c : Char) : Bool :=
  (0x9 ≤ c.toNat && c.toNat ≤ 0xD) || c.toNat == 0x20 || c.toNat == 0x85 ||
  c.toNat == 0xA0 || c.toNat == 0x1680 ||
  (0x2000 ≤ c.toNat && c.toNat ≤ 0x200A) || c.toNat == 0x2028 ||
  c.toNat == 0x2029 || c.toNat == 0x202F || c.toNat == 0x205F ||
  c.toNat == 0x3000

/-- Rust `str::trim`: drop leading and trailing whitespace. -/
def trim (s : Str) : Str :=
  ((s.dropWhile isRustWs).reverse.dropWhile isRustWs).reverse

/-- Rust `.replace(" ", "-")` for the one-character pattern `" "`:
every space character becomes a hyphen. -/
def spaceHy (c : Char) : Char := if c = ' ' then '-' else c

/-- The name cleaning `name.trim().replace(" ", "-")` performed in
`Project::new` and `Project::edit_name`. -/
def normalize (s : Str) : Str := (trim s).map spaceHy

/-- Rust `Vec::join(",")`: the raw text stored in the `tags` column
(`Project::add_to_db`, `Project::edit_tags`). -/
def joinTags (ts : List Str) : Str := List.intercalate [','] ts

/-- The read path for the `tags` column: `split(',')` then drop empty
segments (`Project::get_from_db_by_name`, `Project::fetch_from_db`). -/
def splitTags (s : Str) : List Str :=
  (s.splitOn ',').filter (fun t => !t.isEmpty)

/-- `anySuffix f s` is true when `f` holds of some suffix of `s`
(including `s` itself and `[]`).  Helper for the `%` wildcard. -/
def anySuffix (f : Str → Bool) : Str → Bool
  | [] => f []
  | c :: cs => f (c :: cs) || anySuffix f cs

/-- SQLite `LIKE` pattern matching: `%` matches any sequence, `_` any one
character, and other characters match up to ASCII case folding.  The whole
string must match the whole pattern. -/
def likeMatch : Str → Str → Bool
  | [], s => s.isEmpty
  | p :: ps, s =>
    if p = '%' then anySuffix (likeMatch ps) s
    else
      match s with
      | [] => false
      | c :: cs =>
        (if p = '_' then true else asciiLower p == asciiLower c) &&
        likeMatch ps cs

/-- The pattern `format!("%{}%", q)` built by `Project::fetch_from_db`. -/
def likeWrap (q : Str) : Str := '%' :: (q ++ ['%'])

/-- Lexicographic byte order on folded names; models SQLite's
`ORDER BY name COLLATE NOCASE ASC` comparison. -/
def lexLe : Str → Str → Bool
  | [], _ => true
  | _ :: _, [] => false
  | a :: as, b :: bs => if a = b then lexLe as bs else decide (a < b)

-- sanity checks on the string layer
example : normalize "  My Project ".toList = "My-Project".toList := by decide
example : joinTags ["x".toList, "y".toList] = "x,y".toList := by decide
example : splitTags ",a".toList = ["a".toList] := by decide
example : likeMatch (likeWrap "apple".toList) "Apple".toList = true := by decide
example : likeMatch (likeWrap "b,c".toList) "ab,cd".toList = true := by decide
example : lexLe "Apple".toList "banana".toList = true := by decide

/-! ## Data model -/

instance {ε α : Type} [DecidableEq ε] [DecidableEq α] : DecidableEq (Except ε α) :=
  fun x y =>
    match x, y with
    | .ok a, .ok b =>
      if h : a = b then .isTrue (by rw [h])
      else .isFalse (by intro hh; injection hh; exact h (by assumption))
    | .error a, .error b =>
      if h : a = b then .isTrue (by rw [h])
      else .isFalse (by intro hh; injection hh; exact h (by assumption))
    | .ok _, .error _ => .isFalse (by intro hh; exact Except.noConfusion hh)
    | .error _, .ok _ => .isFalse (by intro hh; exact Except.noConfusion hh)

/-- The error enum of `src/lib.rs` (`enum Errors`). -/
inductive Errors where
  | ProjectNameTaken
  | DirAlreadyExists
  | IOErr
  | NotImpl
  | DatabaseError
  | CouldNotGetProject
  | ProjectDoesNotExist
  | FailedToRemoveProject
deriving DecidableEq

/-- The `std::io::ErrorKind` values distinguished by the code: the
`From<std::io::Error> for Errors` impl looks only at `AlreadyExists`. -/
inductive IoKind where
  | AlreadyExists
  | NotFound
  | OtherErr
deriving DecidableEq

/-- `impl From<std::io::Error> for Errors`: `AlreadyExists` becomes
`DirAlreadyExists`, every other kind becomes the generic IO error. -/
def errorsOfIo : IoKind → Errors
  | .AlreadyExists => .DirAlreadyExists
  | _ => .IOErr

/-- `struct Project { name, tags }`. -/
structure Project where
  name : Str
  tags : List Str
deriving DecidableEq

/-- One row of the `projects` table; `tags` is the raw column text. -/
structure DbRow where
  name : Str
  tags : Str
deriving DecidableEq

/-- The state a command invocation acts on: the `projects` table of
`pile.db` and the set of directory names under the workspace root. -/
structure World where
  db : List DbRow
  fs : List Str
deriving DecidableEq

/-- `Project::new`: clean the name with `trim().replace(" ", "-")` and keep
the tags as supplied. -/
def Project.new (name : Str) (tags : List Str) : Project :=
  ⟨normalize name, tags⟩

/-- `Project::get_path`: `workspace.join(name)`; paths are modelled
workspace-relative, so the path of a project is its directory name. -/
def Project.get_path (p : Project) : Str := p.name

/-- `Project::name_taken`: `SELECT id FROM projects WHERE name = ?1`
(`=` is SQLite's default binary comparison, so exact equality). -/
def name_taken (name : Str) (db : List DbRow) : Bool :=
  db.any (fun r => decide (r.name = name))

/-- The closure turning a fetched row into a `Project`: split the raw
`tags` text on `,` and drop empty segments. -/
def rowToProject (r : DbRow) : Project := ⟨r.name, splitTags r.tags⟩

/-- `Project::get_from_db_by_name`: first row whose `name` column equals
the queried name (binary comparison), `CouldNotGetProject` when none. -/
def get_from_db_by_name (name : Str) (db : List DbRow) : Except Errors Project :=
  match db.find? (fun r => decide (r.name = name)) with
  | some r => .ok ⟨name, splitTags r.tags⟩
  | none => .error .CouldNotGetProject

/-- `Project::remove_from_db_by_name`: `DELETE FROM projects WHERE name = ?1`
(succeeds even when zero rows match). -/
def remove_from_db_by_name (name : Str) (db : List DbRow) : List DbRow :=
  db.filter (fun r => decide (r.name ≠ name))

/-- `Project::add_to_db`: `INSERT INTO projects (name, tags)`; the insert
fails (unique constraint on `name`) when the name is already present. -/
def add_to_db (p : Project) (db : List DbRow) : Except Unit (List DbRow) :=
  if name_taken p.name db then .error ()
  else .ok (db ++ [⟨p.name, joinTags p.tags⟩])

/-- `UPDATE projects SET name = ?1 WHERE name = ?2` as run by
`Project::edit_name`.  The statement aborts with a constraint violation
(leaving the table unchanged) when it would duplicate a name that some
row not being renamed already has; otherwise all matching rows (at most
one, by uniqueness) get the new name.  Updating zero rows succeeds. -/
def updateName (old new : Str) (db : List DbRow) : Except Unit (List DbRow) :=
  if name_taken old db && decide (new ≠ old) &&
      db.any (fun r => decide (r.name ≠ old ∧ r.name = new)) then
    .error ()
  else
    .ok (db.map (fun r => if r.name = old then { r with name := new } else r))

/-- `UPDATE projects SET tags = ?1 WHERE name = ?2` as run by
`Project::edit_tags`. -/
def updateTags (name : Str) (tagsText : Str) (db : List DbRow) : List DbRow :=
  db.map (fun r => if r.name = name then { r with tags := tagsText } else r)

/-- `fs::create_dir`: fails with `AlreadyExists` when the directory is
present, otherwise adds it. -/
def fsCreateDir (name : Str) (fs : List Str) : Except IoKind (List Str) :=
  if name ∈ fs then .error .AlreadyExists else .ok (fs ++ [name])

/-- `fs::rename` on a directory: fails with `NotFound` when the source is
missing, with some other IO error when a distinct destination is occupied,
and otherwise renames. -/
def fsRename (src dst : Str) (fs : List Str) : Except IoKind (List Str) :=
  if src ∉ fs then .error .NotFound
  else if dst ∈ fs ∧ dst ≠ src then .error .OtherErr
  else .ok (fs.map (fun d => if d = src then dst else d))

/-! ## Entity mutation (`Project::edit_name`, `Project::edit_tags`) -/

/-- `Project::edit_name`: run the `UPDATE` first, then rename the directory
(`fs::rename`, propagated with `?`), and only on success overwrite
`self.name`.  Note there is no compensation of the `UPDATE` when the
rename fails.  Returns (result, updated self, updated world). -/
def edit_name (p : Project) (new_name : Str) (w : World) :
    Except Errors Str × Project × World :=
  match updateName p.name (normalize new_name) w.db with
  | .error _ => (.error .DatabaseError, p, w)
  | .ok db₁ =>
    match fsRename p.get_path (normalize new_name) w.fs with
    | .error e => (.error (errorsOfIo e), p, { w with db := db₁ })
    | .ok fs₁ =>
      (.ok (normalize new_name), { p with name := normalize new_name },
        ⟨db₁, fs₁⟩)

/-- `Project::edit_tags`: store `new_tags.join(",")` in the row and replace
`self.tags` with the given list as supplied (no filtering of empties). -/
def edit_tags (p : Project) (new_tags : List Str) (w : World) :
    Except Errors Unit × Project × World :=
  (.ok (), { p with tags := new_tags },
    { w with db := updateTags p.name (joinTags new_tags) w.db })

/-! ## Catalog operations -/

/-- `add_project`: clean the name via `Project::new`, reject a taken name,
create the directory, then insert the row.  The optional readme and clone
steps run after the row insert and touch only the inside of the new
directory, which the state does not track; they are modelled as no-ops
(their own IO failure modes, which can only occur after both the directory
and the row exist, are not modelled). -/
def add_project (name : Str) (tags : List Str) (w : World) :
    Except Errors Unit × World :=
  let project := Project.new name tags
  if name_taken project.name w.db then (.error .ProjectNameTaken, w)
  else
    match fsCreateDir project.get_path w.fs with
    | .error e => (.error (errorsOfIo e), w)
    | .ok fs₁ =>
      match add_to_db project w.db with
      | .error _ => (.error .DatabaseError, { w with fs := fs₁ })
      | .ok db₁ => (.ok (), ⟨db₁, fs₁⟩)

/-- `remove_project`: `ProjectDoesNotExist` when the name is not in the
catalog, otherwise delete the row; the filesystem is never touched. -/
def remove_project (name : Str) (w : World) : Except Errors Unit × World :=
  if !name_taken name w.db then (.error .ProjectDoesNotExist, w)
  else (.ok (), { w with db := remove_from_db_by_name name w.db })

/-- `get_project_path`: look the project up by the supplied name and return
its derived (workspace-relative) path. -/
def get_project_path (name : Str) (w : World) : Except Errors Str :=
  match get_from_db_by_name name w.db with
  | .ok p => .ok p.get_path
  | .error e => .error e

/-- The optional tag-update step at the end of `edit`. -/
def editTagsStep (project : Project) (new_tags : Option (List Str))
    (w : World) : Except Errors Unit × World :=
  match new_tags with
  | some ts => ((edit_tags project ts w).1, (edit_tags project ts w).2.2)
  | none => (.ok (), w)

/-- The rename step of `edit`: a failing `edit_name` early-returns (the
`?` operator), skipping the tag update. -/
def editRenameStep (project : Project) (nn : Str)
    (new_tags : Option (List Str)) (w : World) : Except Errors Unit × World :=
  match edit_name project nn w with
  | (.error e, _, w₁) => (.error e, w₁)
  | (.ok _, project₁, w₁) => editTagsStep project₁ new_tags w₁

/-- `edit`: fetch the project by the supplied name, then apply the rename
(early-returning its error) and then the tag update. -/
def edit (name : Str) (new_name : Option Str) (new_tags : Option (List Str))
    (w : World) : Except Errors Unit × World :=
  match get_from_db_by_name name w.db with
  | .error e => (.error e, w)
  | .ok project =>
    match new_name with
    | some nn => editRenameStep project nn new_tags w
    | none => editTagsStep project new_tags w

/-- `Project::fetch_from_db`: the WHERE clause keeps a row when each
present filter, wrapped as `%…%`, LIKE-matches the corresponding raw
column (an omitted filter adds no clause at all). -/
def rowKeep (name_query tag_query : Option Str) (r : DbRow) : Bool :=
  (match name_query with
   | some q => likeMatch (likeWrap q) r.name
   | none => true) &&
  (match tag_query with
   | some q => likeMatch (likeWrap q) r.tags
   | none => true)

/-- `ORDER BY name COLLATE NOCASE ASC` as a comparison on rows. -/
def nocaseLe (a b : DbRow) : Bool := lexLe (fold a.name) (fold b.name)

/-- `Project::fetch_from_db`: filter by the (up to two) LIKE clauses, order
by name case-insensitively, and convert each row to a `Project`.  In the
model the query itself cannot fail, so the result is always `ok`. -/
def fetch_from_db (db : List DbRow) (name_query tag_query : Option Str) :
    Except Errors (List Project) :=
  .ok ((((db.filter (rowKeep name_query tag_query)).mergeSort nocaseLe)).map
    rowToProject)

-- sanity checks on the operations
example :
    add_project "  My Project ".toList [] ⟨[], []⟩ =
      (.ok (), ⟨[⟨"My-Project".toList, []⟩], ["My-Project".toList]⟩) := by
  decide

example :
    (edit "foo".toList (some "bar".toList) none
      ⟨[⟨"foo".toList, []⟩], []⟩).1 = .error .IOErr := by decide

/-! ## Name normalization lemmas -/

theorem spaceHy_ne_space (c : Char) : spaceHy c ≠ ' ' := by
  unfold spaceHy
  split
  · decide
  · assumption

theorem spaceHy_idem (c : Char) : spaceHy (spaceHy c) = spaceHy c := by
  unfold spaceHy
  by_cases h : c = ' '
  · simp [h]
  · simp [h]

theorem mem_normalize_ne_space {s : Str} {c : Char} (h : c ∈ normalize s) :
    c ≠ ' ' := by
  unfold normalize at h
  obtain ⟨a, -, rfl⟩ := List.mem_map.mp h
  exact spaceHy_ne_space a

theorem spaceHy_nonWs {c : Char} (h : isRustWs c = false) :
    isRustWs (spaceHy c) = false := by
  unfold spaceHy
  by_cases hc : c = ' '
  · subst hc; exact absurd h (by decide)
  · simpa [hc] using h

/-- Heads surviving a `dropWhile` fail the predicate. -/
theorem dropWhile_head_false (p : Char → Bool) (l : Str) :
    ∀ c ∈ (l.dropWhile p).head?, p c = false := by
  induction l with
  | nil => simp
  | cons a as ih =>
    by_cases h : p a
    · rw [List.dropWhile_cons, if_pos h]
      exact ih
    · rw [List.dropWhile_cons, if_neg h]
      intro c hc
      obtain rfl : a = c := by simpa using hc
      exact Bool.eq_false_iff.mpr h

theorem dropWhile_eq_self_of_head (p : Char → Bool) (l : Str)
    (h : ∀ c ∈ l.head?, p c = false) : l.dropWhile p = l := by
  cases l with
  | nil => rfl
  | cons a as => simp [List.dropWhile_cons, h a (by simp)]

/-- A string with no leading and no trailing Rust whitespace. -/
def Trimmed (l : Str) : Prop :=
  (∀ c ∈ l.head?, isRustWs c = false) ∧
  (∀ c ∈ l.reverse.head?, isRustWs c = false)

theorem trim_eq_self_of_trimmed {l : Str} (h : Trimmed l) : trim l = l := by
  unfold trim
  rw [dropWhile_eq_self_of_head _ _ h.1, dropWhile_eq_self_of_head _ _ h.2,
    List.reverse_reverse]

theorem trimmed_trim (s : Str) : Trimmed (trim s) := by
  constructor
  · -- the head of `trim s` is the head of `dropWhile isRustWs s`
    intro c hc
    obtain ⟨w, hw⟩ :=
      @List.dropWhile_suffix Char (s.dropWhile isRustWs).reverse isRustWs
    have hs : s.dropWhile isRustWs = trim s ++ w.reverse := by
      have hrev := congrArg List.reverse hw
      simp only [List.reverse_append, List.reverse_reverse] at hrev
      rw [← hrev]
      rfl
    have : c ∈ (s.dropWhile isRustWs).head? := by
      rw [hs, List.head?_append]
      rcases hhead : (trim s).head? with - | d
      · rw [Option.mem_def] at hc
        rw [hc] at hhead
        exact Option.noConfusion hhead
      · simpa [hhead] using hc
    exact dropWhile_head_false _ _ _ this
  · intro c hc
    unfold trim at hc
    rw [List.reverse_reverse] at hc
    exact dropWhile_head_false _ _ _ hc

theorem trimmed_map_spaceHy {l : Str} (h : Trimmed l) :
    Trimmed (l.map spaceHy) := by
  constructor
  · intro c hc
    rw [List.head?_map] at hc
    rcases hhead : l.head? with - | d
    · rw [hhead] at hc; exact Option.noConfusion hc
    · rw [hhead] at hc
      obtain rfl : spaceHy d = c := by simpa using hc
      exact spaceHy_nonWs (h.1 d (by simp [hhead]))
  · intro c hc
    rw [← List.map_reverse, List.head?_map] at hc
    rcases hhead : l.reverse.head? with - | d
    · rw [hhead] at hc; exact Option.noConfusion hc
    · rw [hhead] at hc
      obtain rfl : spaceHy d = c := by simpa using hc
      exact spaceHy_nonWs (h.2 d (by simp [hhead]))

theorem trim_normalize (s : Str) : trim (normalize s) = normalize s :=
  trim_eq_self_of_trimmed (trimmed_map_spaceHy (trimmed_trim s))

theorem normalize_idem (s : Str) : normalize (normalize s) = normalize s := by
  have hfun : spaceHy ∘ spaceHy = spaceHy := funext spaceHy_idem
  unfold normalize
  rw [show trim ((trim s).map spaceHy) = (trim s).map spaceHy from
      trim_normalize s, List.map_map, hfun]

/-- C9: for every raw name, the normalization applied by `Project::new` and
`Project::edit_name` (trim, then replace spaces with hyphens) is total (it
is a Lean function, defined on all inputs), idempotent, and its result
contains no space character. -/
theorem normalize_idem_and_no_space (s : Str) :
    normalize (normalize s) = normalize s ∧ ∀ c ∈ normalize s, c ≠ ' ' :=
  ⟨normalize_idem s, fun _ hc => mem_normalize_ne_space hc⟩

/-! ## Add: duplicate names and directory conflicts -/

/-- C4: when the normalized name is already in the catalog, `add_project`
fails with `ProjectNameTaken` and the state (catalog and filesystem) is
returned unchanged: the check precedes both the directory creation and the
row insert. -/
theorem add_project_name_taken (w : World) (name : Str) (tags : List Str)
    (h : name_taken (normalize name) w.db = true) :
    add_project name tags w = (.error .ProjectNameTaken, w) := by
  unfold add_project Project.new
  simp [h]

theorem add_project_name_taken_witness :
    add_project "My Project".toList ["a".toList]
        ⟨[⟨"My-Project".toList, []⟩], []⟩ =
      (.error .ProjectNameTaken, ⟨[⟨"My-Project".toList, []⟩], []⟩) :=
  add_project_name_taken ⟨[⟨"My-Project".toList, []⟩], []⟩ _ _ (by decide)

/-- C5: `add_project` creates the directory before inserting the row: on
every error return the catalog is unchanged; in particular a derived path
already on disk while the name is catalog-free yields `DirAlreadyExists`
with the whole state unchanged; and a successful add has appended exactly
the new directory and the new row. -/
theorem add_project_dir_before_row (w : World) (name : Str) (tags : List Str) :
    (∀ e w₁, add_project name tags w = (.error e, w₁) → w₁.db = w.db) ∧
    (name_taken (normalize name) w.db = false → normalize name ∈ w.fs →
      add_project name tags w = (.error .DirAlreadyExists, w)) ∧
    (∀ w₁, add_project name tags w = (.ok (), w₁) →
      w₁.fs = w.fs ++ [normalize name] ∧
      w₁.db = w.db ++ [⟨normalize name, joinTags tags⟩]) := by
  unfold add_project Project.new fsCreateDir add_to_db Project.get_path
  by_cases h1 : name_taken (normalize name) w.db
  · simp [h1]
  · by_cases h2 : normalize name ∈ w.fs
    · simp [h1, h2, errorsOfIo]
    · simp [h1, h2]

theorem add_project_dir_before_row_witness :
    add_project "foo".toList [] ⟨[], ["foo".toList]⟩ =
      (.error .DirAlreadyExists, ⟨[], ["foo".toList]⟩) :=
  (add_project_dir_before_row ⟨[], ["foo".toList]⟩ "foo".toList []).2.1
    (by decide) (by decide)

/-! ## Remove -/

/-- C8 counterexample: after removing `"foo"`, the lookup
`get_project_path "foo"` fails with `CouldNotGetProject`, not with
`ProjectDoesNotExist` as the claim (which equates the spec's
`ProjectNotFound` with `Errors::ProjectDoesNotExist`) states. -/
theorem remove_then_lookup_error_mismatch :
    (remove_project "foo".toList ⟨[⟨"foo".toList, []⟩], ["foo".toList]⟩).1 =
      .ok () ∧
    "foo".toList ∈
      (remove_project "foo".toList ⟨[⟨"foo".toList, []⟩], ["foo".toList]⟩).2.fs ∧
    get_project_path "foo".toList
      (remove_project "foo".toList ⟨[⟨"foo".toList, []⟩], ["foo".toList]⟩).2 =
      .error .CouldNotGetProject ∧
    get_project_path "foo".toList
      (remove_project "foo".toList ⟨[⟨"foo".toList, []⟩], ["foo".toList]⟩).2 ≠
      .error .ProjectDoesNotExist := by
  decide

/-- C8 (amended): `remove_project` on an unknown name fails with
`ProjectDoesNotExist` and changes nothing; on a known name it deletes
exactly the rows with that name, touches no directory, and a subsequent
lookup of the name fails with the lookup's own not-found error,
`CouldNotGetProject`. -/
theorem remove_project_spec (w : World) (name : Str) :
    (name_taken name w.db = false →
      remove_project name w = (.error .ProjectDoesNotExist, w)) ∧
    (name_taken name w.db = true →
      (remove_project name w).1 = .ok () ∧
      (remove_project name w).2.fs = w.fs ∧
      (∀ r, r ∈ (remove_project name w).2.db ↔ r ∈ w.db ∧ r.name ≠ name) ∧
      get_project_path name (remove_project name w).2 =
        .error .CouldNotGetProject) := by
  constructor
  · intro h
    unfold remove_project
    simp [h]
  · intro h
    unfold remove_project
    simp only [h, Bool.not_true, Bool.false_eq_true, if_false]
    refine ⟨by simp, by simp, ?_, ?_⟩
    · intro r
      unfold remove_from_db_by_name
      simp [List.mem_filter]
    · unfold get_project_path get_from_db_by_name remove_from_db_by_name
      rw [List.find?_eq_none.mpr]
      intro r hr
      have := (List.mem_filter.mp hr).2
      simpa using this

theorem remove_project_spec_witness :
    remove_project "bar".toList ⟨[⟨"foo".toList, []⟩], ["foo".toList]⟩ =
      (.error .ProjectDoesNotExist, ⟨[⟨"foo".toList, []⟩], ["foo".toList]⟩) ∧
    get_project_path "foo".toList
      (remove_project "foo".toList ⟨[⟨"foo".toList, []⟩], ["foo".toList]⟩).2 =
      .error .CouldNotGetProject :=
  ⟨(remove_project_spec ⟨[⟨"foo".toList, []⟩], ["foo".toList]⟩ "bar".toList).1
      (by decide),
    ((remove_project_spec ⟨[⟨"foo".toList, []⟩], ["foo".toList]⟩
      "foo".toList).2 (by decide)).2.2.2⟩

/-! ## Rename: no compensation of the store update -/

/-- C1: evaluation of the code at a failing input.  With the catalog row
`"foo"` present but its directory missing on disk, `edit` with a new name
`"bar"` performs the `UPDATE`, then fails in `fs::rename` and returns the
IO error with the store update still in place: the catalog row now points
at the directory name `"bar"`, which does not exist on disk.  The revert
required by the claim never happens. -/
theorem edit_name_no_rollback :
    edit "foo".toList (some "bar".toList) none ⟨[⟨"foo".toList, []⟩], []⟩ =
      (.error .IOErr, ⟨[⟨"bar".toList, []⟩], []⟩) ∧
    name_taken "bar".toList
      (edit "foo".toList (some "bar".toList) none
        ⟨[⟨"foo".toList, []⟩], []⟩).2.db = true ∧
    "bar".toList ∉
      (edit "foo".toList (some "bar".toList) none
        ⟨[⟨"foo".toList, []⟩], []⟩).2.fs := by
  decide

/-! ## Tags: join/split round-trip -/

theorem splitTags_joinTags (ts : List Str) (h : ∀ t ∈ ts, ',' ∉ t) :
    splitTags (joinTags ts) = ts.filter (fun t => !t.isEmpty) := by
  cases ts with
  | nil => rfl
  | cons a as =>
    unfold splitTags joinTags
    rw [List.splitOn_intercalate (a :: as) ',' h (by simp)]

/-- C6: for comma-free tags, writing the comma join (`Project::add_to_db`)
and reading back with split-and-drop-empties
(`Project::get_from_db_by_name`) returns the input with empty-string tags
removed; when no tag is empty the round-trip is the identity.  The third
conjunct runs the round-trip through the store operations themselves. -/
theorem tags_roundtrip (ts : List Str) (h : ∀ t ∈ ts, ',' ∉ t) :
    splitTags (joinTags ts) = ts.filter (fun t => !t.isEmpty) ∧
    ((∀ t ∈ ts, t ≠ []) → splitTags (joinTags ts) = ts) ∧
    (∀ (w : World) (p : Project), p.tags = ts →
      name_taken p.name w.db = false →
      ∃ db₁, add_to_db p w.db = .ok db₁ ∧
        get_from_db_by_name p.name db₁ =
          .ok ⟨p.name, ts.filter (fun t => !t.isEmpty)⟩) := by
  refine ⟨splitTags_joinTags ts h, ?_, ?_⟩
  · intro hne
    rw [splitTags_joinTags ts h, List.filter_eq_self.mpr]
    intro t ht
    simpa using hne t ht
  · intro w p hts htaken
    refine ⟨w.db ++ [⟨p.name, joinTags p.tags⟩], ?_, ?_⟩
    · unfold add_to_db
      rw [htaken]
      simp
    · have hnone : List.find? (fun r => decide (r.name = p.name)) w.db = none := by
        rw [List.find?_eq_none]
        intro r hr
        simp only [decide_eq_true_eq]
        intro hEq
        have htrue : name_taken p.name w.db = true := by
          unfold name_taken
          rw [List.any_eq_true]
          exact ⟨r, hr, by simp [hEq]⟩
        rw [htaken] at htrue
        exact Bool.noConfusion htrue
      unfold get_from_db_by_name
      rw [List.find?_append, hnone, Option.none_or,
        List.find?_cons_of_pos _ (by simp)]
      simp [hts, splitTags_joinTags ts h]

theorem tags_roundtrip_witness :
    splitTags (joinTags [['x'], ['y'], ['z']]) = [['x'], ['y'], ['z']] ∧
    splitTags (joinTags [['x'], [], ['y']]) = [['x'], ['y']] :=
  ⟨(tags_roundtrip [['x'], ['y'], ['z']] (by decide)).2.1 (by decide),
    ((tags_roundtrip [['x'], [], ['y']] (by decide)).1).trans (by decide)⟩

/-! ## Edit-tags: empty entries are kept at write time -/

/-- C3 counterexample: `edit_tags` with the list `["", "a"]` leaves the
empty string in the in-memory tag sequence and stores the raw text `",a"`
(the join of the unfiltered list, which is not the join of `["a"]`), so
empty entries are not filtered out before the replacement. -/
theorem edit_tags_keeps_empty :
    (edit_tags ⟨['p'], []⟩ [[], ['a']] ⟨[⟨['p'], []⟩], []⟩).2.1.tags =
      [[], ['a']] ∧
    [] ∈ (edit_tags ⟨['p'], []⟩ [[], ['a']] ⟨[⟨['p'], []⟩], []⟩).2.1.tags ∧
    (edit_tags ⟨['p'], []⟩ [[], ['a']] ⟨[⟨['p'], []⟩], []⟩).2.2.db =
      [⟨['p'], [',', 'a']⟩] ∧
    [',', 'a'] ≠ joinTags [['a']] := by
  decide

/-- C3 (amended): `edit_tags` replaces the in-memory tag sequence and the
persisted column verbatim (the raw join of the supplied list, empty entries
included); empty entries are only dropped later, when the row is read back
through the split-and-filter path. -/
theorem edit_tags_verbatim (p : Project) (ts : List Str) (w : World)
    (hcomma : ∀ t ∈ ts, ',' ∉ t) :
    (edit_tags p ts w).1 = .ok () ∧
    (edit_tags p ts w).2.1.tags = ts ∧
    (∀ r ∈ (edit_tags p ts w).2.2.db, r.name = p.name →
      r.tags = joinTags ts ∧
      splitTags r.tags = ts.filter (fun t => !t.isEmpty)) ∧
    (∀ r ∈ (edit_tags p ts w).2.2.db, r.name ≠ p.name → r ∈ w.db) := by
  refine ⟨rfl, rfl, ?_, ?_⟩
  · intro r hr hname
    unfold edit_tags updateTags at hr
    simp only [List.mem_map] at hr
    obtain ⟨r₀, -, rfl⟩ := hr
    by_cases h0 : r₀.name = p.name
    · simp only [h0, if_true]
      exact ⟨by trivial, splitTags_joinTags ts hcomma⟩
    · rw [if_neg h0] at hname
      exact absurd hname h0
  · intro r hr hname
    unfold edit_tags updateTags at hr
    simp only [List.mem_map] at hr
    obtain ⟨r₀, hr₀, rfl⟩ := hr
    by_cases h0 : r₀.name = p.name
    · rw [if_pos h0] at hname
      exact absurd h0 hname
    · rwa [if_neg h0]

theorem edit_tags_verbatim_witness :
    (edit_tags ⟨['p'], []⟩ [[], ['a']] ⟨[⟨['p'], []⟩], []⟩).2.1.tags =
      [[], ['a']] :=
  (edit_tags_verbatim ⟨['p'], []⟩ [[], ['a']] ⟨[⟨['p'], []⟩], []⟩
    (by decide)).2.1

/-! ## Ordering of query results -/

theorem lexLe_trans :
    ∀ (a b c : Str), lexLe a b = true → lexLe b c = true → lexLe a c = true := by
  intro a
  induction a with
  | nil => intro b c _ _; rfl
  | cons x xs ih =>
    intro b c hab hbc
    cases b with
    | nil => exact absurd hab (by simp [lexLe])
    | cons y ys =>
      cases c with
      | nil => exact absurd hbc (by simp [lexLe])
      | cons z zs =>
        simp only [lexLe] at hab hbc ⊢
        by_cases hxy : x = y
        · subst hxy
          rw [if_pos rfl] at hab
          by_cases hyz : x = z
          · subst hyz
            rw [if_pos rfl] at hbc ⊢
            exact ih ys zs hab hbc
          · rw [if_neg hyz] at hbc ⊢
            exact hbc
        · rw [if_neg hxy] at hab
          have hlt : x < y := of_decide_eq_true hab
          by_cases hyz : y = z
          · subst hyz
            rw [if_neg hxy]
            exact hab
          · rw [if_neg hyz] at hbc
            have hlt2 : y < z := of_decide_eq_true hbc
            have hxz : x < z := lt_trans hlt hlt2
            rw [if_neg (ne_of_lt hxz)]
            exact decide_eq_true hxz

theorem lexLe_total : ∀ (a b : Str), (lexLe a b || lexLe b a) = true := by
  intro a
  induction a with
  | nil => intro b; simp [lexLe]
  | cons x xs ih =>
    intro b
    cases b with
    | nil => simp [lexLe]
    | cons y ys =>
      simp only [lexLe]
      by_cases hxy : x = y
      · subst hxy
        rw [if_pos rfl, if_pos rfl]
        exact ih ys
      · rw [if_neg hxy, if_neg (Ne.symm hxy)]
        rcases lt_or_gt_of_ne hxy with h | h
        · simp [h]
        · simp [h]

theorem nocaseLe_trans (a b c : DbRow) :
    nocaseLe a b = true → nocaseLe b c = true → nocaseLe a c = true :=
  lexLe_trans (fold a.name) (fold b.name) (fold c.name)

theorem nocaseLe_total (a b : DbRow) : (nocaseLe a b || nocaseLe b a) = true :=
  lexLe_total (fold a.name) (fold b.name)

/-! ## LIKE matching characterized as folded substring containment -/

/-- A filter string containing no `LIKE` wildcard. -/
abbrev noWild (q : Str) : Prop := '%' ∉ q ∧ '_' ∉ q

theorem anySuffix_iff (f : Str → Bool) (s : Str) :
    anySuffix f s = true ↔ ∃ s₁ s₂, s = s₁ ++ s₂ ∧ f s₂ = true := by
  induction s with
  | nil =>
    constructor
    · intro h
      exact ⟨[], [], rfl, h⟩
    · rintro ⟨s₁, s₂, heq, hf⟩
      obtain ⟨rfl, rfl⟩ := List.append_eq_nil.mp heq.symm
      exact hf
  | cons c cs ih =>
    constructor
    · intro h
      rcases (Bool.or_eq_true _ _).mp h with h | h
      · exact ⟨[], c :: cs, rfl, h⟩
      · obtain ⟨s₁, s₂, heq, hf⟩ := ih.mp h
        exact ⟨c :: s₁, s₂, by rw [heq]; rfl, hf⟩
    · rintro ⟨s₁, s₂, heq, hf⟩
      show (f (c :: cs) || anySuffix f cs) = true
      apply (Bool.or_eq_true _ _).mpr
      cases s₁ with
      | nil =>
        left
        rw [show c :: cs = s₂ from heq]
        exact hf
      | cons a as =>
        right
        injection heq with h1 h2
        exact ih.mpr ⟨as, s₂, h2, hf⟩

theorem likeMatch_app_pct :
    ∀ (q : Str), noWild q → ∀ s : Str,
      (likeMatch (q ++ ['%']) s = true ↔
        ∃ s₁ s₂, s = s₁ ++ s₂ ∧ fold s₁ = fold q) := by
  intro q
  induction q with
  | nil =>
    intro _ s
    constructor
    · intro _
      exact ⟨[], s, rfl, rfl⟩
    · intro _
      show likeMatch ('%' :: []) s = true
      show (if '%' = '%' then anySuffix (likeMatch []) s else _) = true
      rw [if_pos rfl]
      exact (anySuffix_iff _ s).mpr ⟨s, [], by simp, rfl⟩
  | cons a q' ih =>
    intro hq s
    obtain ⟨hp, hu⟩ := hq
    rw [List.mem_cons, not_or] at hp hu
    have hq' : noWild q' := ⟨hp.2, hu.2⟩
    cases s with
    | nil =>
      constructor
      · intro h
        exfalso
        rw [show likeMatch ((a :: q') ++ ['%']) [] = false by
          show (if a = '%' then anySuffix (likeMatch (q' ++ ['%'])) [] else _) =
            false
          rw [if_neg (fun hh => hp.1 hh.symm)]] at h
        exact Bool.noConfusion h
      · rintro ⟨s₁, s₂, heq, hfold⟩
        obtain ⟨rfl, rfl⟩ := List.append_eq_nil.mp heq.symm
        exact absurd hfold (by simp [fold])
    | cons c cs =>
      have hunf : likeMatch ((a :: q') ++ ['%']) (c :: cs) =
          ((asciiLower a == asciiLower c) && likeMatch (q' ++ ['%']) cs) := by
        show (if a = '%' then anySuffix (likeMatch (q' ++ ['%'])) (c :: cs)
          else ((if a = '_' then true else asciiLower a == asciiLower c) &&
            likeMatch (q' ++ ['%']) cs)) = _
        rw [if_neg (fun hh => hp.1 hh.symm), if_neg (fun hh => hu.1 hh.symm)]
      rw [hunf]
      constructor
      · intro h
        obtain ⟨he, hrest⟩ := (Bool.and_eq_true _ _).mp h
        obtain ⟨s₁, s₂, heq, hfold⟩ := (ih hq' cs).mp hrest
        refine ⟨c :: s₁, s₂, by rw [heq, List.cons_append], ?_⟩
        show asciiLower c :: fold s₁ = asciiLower a :: fold q'
        rw [hfold, eq_of_beq he]
      · rintro ⟨s₁, s₂, heq, hfold⟩
        cases s₁ with
        | nil => exact absurd hfold (by simp [fold])
        | cons d s₁' =>
          injection heq with h1 h2
          subst h1
          have hfold' : asciiLower c :: fold s₁' = asciiLower a :: fold q' :=
            hfold
          injection hfold' with hc hrest
          apply (Bool.and_eq_true _ _).mpr
          exact ⟨beq_iff_eq.mpr hc.symm, (ih hq' cs).mpr ⟨s₁', s₂, h2, hrest⟩⟩

/-- The LIKE pattern `%q%` (for a wildcard-free `q`) matches a string iff
the ASCII-folded `q` occurs as a contiguous substring of the ASCII-folded
string. -/
theorem likeWrap_iff (q : Str) (hq : noWild q) (s : Str) :
    likeMatch (likeWrap q) s = true ↔
      ∃ u v, fold s = u ++ fold q ++ v := by
  have h1 : likeMatch (likeWrap q) s = anySuffix (likeMatch (q ++ ['%'])) s := by
    show (if '%' = '%' then anySuffix (likeMatch (q ++ ['%'])) s else _) = _
    rw [if_pos rfl]
  rw [h1, anySuffix_iff]
  constructor
  · rintro ⟨s₁, s₂, rfl, hm⟩
    obtain ⟨t₁, t₂, rfl, hfold⟩ := (likeMatch_app_pct q hq s₂).mp hm
    refine ⟨fold s₁, fold t₂, ?_⟩
    show fold (s₁ ++ (t₁ ++ t₂)) = fold s₁ ++ fold q ++ fold t₂
    simp only [fold, List.map_append, List.append_assoc]
    rw [show List.map asciiLower t₁ = List.map asciiLower q from hfold]
  · rintro ⟨u, v, hdecomp⟩
    rw [List.append_assoc] at hdecomp
    obtain ⟨l₁, l₂, rfl, hmap1, hmap2⟩ := List.map_eq_append_iff.mp hdecomp
    obtain ⟨m₁, m₂, rfl, hmapq, hmapv⟩ := List.map_eq_append_iff.mp hmap2
    exact ⟨l₁, m₁ ++ m₂, rfl,
      (likeMatch_app_pct q hq _).mpr ⟨m₁, m₂, rfl, hmapq⟩⟩

theorem rowKeep_name (q : Str) (r : DbRow) :
    rowKeep (some q) none r = likeMatch (likeWrap q) r.name := by
  unfold rowKeep
  simp

theorem rowKeep_tag (q : Str) (r : DbRow) :
    rowKeep none (some q) r = likeMatch (likeWrap q) r.tags := by
  unfold rowKeep
  simp

theorem mem_fetch (db : List DbRow) (nq tq : Option Str) (p : Project) :
    (p ∈ ((db.filter (rowKeep nq tq)).mergeSort nocaseLe).map rowToProject ↔
      ∃ r, r ∈ db ∧ p = rowToProject r ∧ rowKeep nq tq r = true) := by
  rw [List.mem_map]
  constructor
  · rintro ⟨r, hr, rfl⟩
    have hmem :=
      (List.mergeSort_perm (db.filter (rowKeep nq tq)) nocaseLe).mem_iff.mp hr
    obtain ⟨hdb, hkeep⟩ := List.mem_filter.mp hmem
    exact ⟨r, hdb, rfl, hkeep⟩
  · rintro ⟨r, hdb, rfl, hkeep⟩
    exact ⟨r, (List.mergeSort_perm _ nocaseLe).mem_iff.mpr
      (List.mem_filter.mpr ⟨hdb, hkeep⟩), rfl⟩

/-- C2 counterexample: the stored name `"Apple"` is selected by the name
filter `"apple"` (SQLite `LIKE` is case-insensitive for ASCII by default),
although `"apple"` is not a case-sensitive substring of the raw stored
text `"Apple"` — so "selects iff the filter is a case-sensitive substring"
is false. -/
theorem fetch_name_filter_not_case_sensitive :
    fetch_from_db [⟨['A', 'p', 'p', 'l', 'e'], []⟩]
        (some ['a', 'p', 'p', 'l', 'e']) none =
      .ok [⟨['A', 'p', 'p', 'l', 'e'], []⟩] ∧
    ¬ ∃ u v, ['A', 'p', 'p', 'l', 'e'] =
      u ++ ['a', 'p', 'p', 'l', 'e'] ++ v := by
  constructor
  · unfold fetch_from_db
    rw [show ([⟨['A', 'p', 'p', 'l', 'e'], []⟩] : List DbRow).filter
          (rowKeep (some ['a', 'p', 'p', 'l', 'e']) none) =
        [⟨['A', 'p', 'p', 'l', 'e'], []⟩] from by decide,
      List.mergeSort_singleton]
    rfl
  · rintro ⟨u, v, h⟩
    have hl := congrArg List.length h
    simp only [List.length_append, List.length_cons, List.length_nil] at hl
    have hu : u = [] := List.length_eq_zero.mp (by omega)
    have hv : v = [] := List.length_eq_zero.mp (by omega)
    subst hu
    subst hv
    simp only [List.nil_append, List.append_nil] at h
    exact absurd h (by decide)

/-- C2 (amended): for every stored catalog and every wildcard-free filter
string, `Project::fetch_from_db` selects a project iff the ASCII-case-
folded filter occurs as a contiguous substring of the ASCII-case-folded
raw stored text — the `name` column for the name filter, the raw
comma-joined `tags` column for the tag filter.  (Matching is
ASCII-case-insensitive, not case-sensitive; filters containing the LIKE
wildcards `%`/`_` are interpreted as patterns instead.) -/
theorem fetch_selects_folded_substring (q : Str) (hq : noWild q)
    (db : List DbRow) (p : Project) :
    (∀ l, fetch_from_db db (some q) none = .ok l →
      (p ∈ l ↔ ∃ r, r ∈ db ∧ p = rowToProject r ∧
        ∃ u v, fold r.name = u ++ fold q ++ v)) ∧
    (∀ l, fetch_from_db db none (some q) = .ok l →
      (p ∈ l ↔ ∃ r, r ∈ db ∧ p = rowToProject r ∧
        ∃ u v, fold r.tags = u ++ fold q ++ v)) := by
  constructor
  · intro l hl
    have hl' : ((db.filter (rowKeep (some q) none)).mergeSort nocaseLe).map
        rowToProject = l := by
      unfold fetch_from_db at hl
      injection hl
    rw [← hl', mem_fetch]
    constructor
    · rintro ⟨r, hdb, rfl, hkeep⟩
      rw [rowKeep_name] at hkeep
      exact ⟨r, hdb, rfl, (likeWrap_iff q hq r.name).mp hkeep⟩
    · rintro ⟨r, hdb, rfl, hsub⟩
      refine ⟨r, hdb, rfl, ?_⟩
      rw [rowKeep_name]
      exact (likeWrap_iff q hq r.name).mpr hsub
  · intro l hl
    have hl' : ((db.filter (rowKeep none (some q))).mergeSort nocaseLe).map
        rowToProject = l := by
      unfold fetch_from_db at hl
      injection hl
    rw [← hl', mem_fetch]
    constructor
    · rintro ⟨r, hdb, rfl, hkeep⟩
      rw [rowKeep_tag] at hkeep
      exact ⟨r, hdb, rfl, (likeWrap_iff q hq r.tags).mp hkeep⟩
    · rintro ⟨r, hdb, rfl, hsub⟩
      refine ⟨r, hdb, rfl, ?_⟩
      rw [rowKeep_tag]
      exact (likeWrap_iff q hq r.tags).mpr hsub

theorem fetch_selects_folded_substring_witness :
    noWild ['a', 'p'] ∧
    (∀ l, fetch_from_db [⟨['A', 'p', 'p', 'l', 'e'], []⟩]
        (some ['a', 'p']) none = .ok l →
      ((⟨['A', 'p', 'p', 'l', 'e'], []⟩ : Project) ∈ l ↔
        ∃ r, r ∈ [(⟨['A', 'p', 'p', 'l', 'e'], []⟩ : DbRow)] ∧
          (⟨['A', 'p', 'p', 'l', 'e'], []⟩ : Project) = rowToProject r ∧
          ∃ u v, fold r.name = u ++ fold ['a', 'p'] ++ v)) :=
  ⟨by decide,
    (fetch_selects_folded_substring ['a', 'p'] (by decide)
      [⟨['A', 'p', 'p', 'l', 'e'], []⟩] ⟨['A', 'p', 'p', 'l', 'e'], []⟩).1⟩

/-- C7: with both filters omitted, `Project::fetch_from_db` succeeds and
returns exactly the stored projects (a permutation of the whole catalog),
ordered ascending by ASCII-case-folded name; on the empty catalog it
returns the empty list rather than an error. -/
theorem fetch_no_filters_spec (db : List DbRow) :
    (∃ l, fetch_from_db db none none = .ok l ∧
      l.Perm (db.map rowToProject) ∧
      l.Pairwise (fun p q => lexLe (fold p.name) (fold q.name) = true)) ∧
    fetch_from_db ([] : List DbRow) none none = .ok [] := by
  constructor
  · have hfilter : db.filter (rowKeep none none) = db :=
      List.filter_eq_self.mpr (fun a _ => rfl)
    refine ⟨((db.mergeSort nocaseLe)).map rowToProject, ?_, ?_, ?_⟩
    · unfold fetch_from_db
      rw [hfilter]
    · exact (List.mergeSort_perm db nocaseLe).map rowToProject
    · have hs := List.sorted_mergeSort
        (fun a b c => nocaseLe_trans a b c)
        (fun a b => nocaseLe_total a b) db
      exact List.pairwise_map.mpr (hs.imp (fun h => h))
  · unfold fetch_from_db
    rw [show (([] : List DbRow).filter (rowKeep none none)) = [] from rfl,
      List.mergeSort_nil]
    rfl

/-! ## Written names are normalized; lookups are verbatim -/

/-- Catalog invariant: every stored name is trimmed and space-free. -/
abbrev NamesOk (db : List DbRow) : Prop :=
  ∀ r ∈ db, (' ' ∉ r.name) ∧ trim r.name = r.name

theorem normalize_entry_ok (s : Str) :
    (' ' ∉ normalize s) ∧ trim (normalize s) = normalize s :=
  ⟨fun hmem => mem_normalize_ne_space hmem rfl, trim_normalize s⟩

theorem namesOk_updateTags (name : Str) (t : Str) {db : List DbRow}
    (h : NamesOk db) : NamesOk (updateTags name t db) := by
  intro r hr
  unfold updateTags at hr
  obtain ⟨r₀, hr₀, rfl⟩ := List.mem_map.mp hr
  by_cases h0 : r₀.name = name
  · rw [if_pos h0]
    exact h r₀ hr₀
  · rw [if_neg h0]
    exact h r₀ hr₀

theorem namesOk_rename (old : Str) (s : Str) {db : List DbRow}
    (h : NamesOk db) :
    NamesOk (db.map
      (fun r => if r.name = old then { r with name := normalize s } else r)) := by
  intro r hr
  obtain ⟨r₀, hr₀, rfl⟩ := List.mem_map.mp hr
  by_cases h0 : r₀.name = old
  · rw [if_pos h0]
    exact normalize_entry_ok s
  · rw [if_neg h0]
    exact h r₀ hr₀

theorem updateName_ok_shape (old c : Str) (db db₁ : List DbRow)
    (h : updateName old c db = .ok db₁) :
    db₁ = db.map (fun r => if r.name = old then { r with name := c } else r) := by
  unfold updateName at h
  split at h
  · exact Except.noConfusion h
  · injection h with h
    exact h.symm

theorem edit_name_db_ok (p : Project) (n' : Str) (w : World)
    (hok : NamesOk w.db) : NamesOk (edit_name p n' w).2.2.db := by
  unfold edit_name
  cases hu : updateName p.name (normalize n') w.db with
  | error e => exact hok
  | ok db₁ =>
    have hdb₁ : NamesOk db₁ := by
      rw [updateName_ok_shape p.name (normalize n') w.db db₁ hu]
      exact namesOk_rename p.name n' hok
    cases hrn : fsRename p.get_path (normalize n') w.fs with
    | error e => exact hdb₁
    | ok fs₁ => exact hdb₁

theorem add_project_db_shape (w : World) (n : Str) (t : List Str) :
    (add_project n t w).2.db = w.db ∨
    (add_project n t w).2.db = w.db ++ [⟨normalize n, joinTags t⟩] := by
  unfold add_project Project.new fsCreateDir add_to_db Project.get_path
  by_cases h1 : name_taken (normalize n) w.db
  · simp [h1]
  · by_cases h2 : normalize n ∈ w.fs
    · simp [h1, h2]
    · simp [h1, h2]

/-- C10: every name written to the store is normalized — `add_project` and
`edit` preserve the invariant that stored names are trimmed and contain no
space — while the lookup operations use the supplied name verbatim, so a
supplied name containing a space can match no stored row and each lookup
fails with its not-found error, leaving the state unchanged. -/
theorem writes_normalized_lookups_verbatim (w : World) (name : Str)
    (nn : Option Str) (nt : Option (List Str)) (tags : List Str)
    (hok : NamesOk w.db) :
    NamesOk (add_project name tags w).2.db ∧
    NamesOk (edit name nn nt w).2.db ∧
    (' ' ∈ name →
      get_project_path name w = .error .CouldNotGetProject ∧
      remove_project name w = (.error .ProjectDoesNotExist, w) ∧
      edit name nn nt w = (.error .CouldNotGetProject, w)) := by
  refine ⟨?_, ?_, ?_⟩
  · rcases add_project_db_shape w name tags with h | h
    · rw [h]
      exact hok
    · rw [h]
      intro r hr
      rcases List.mem_append.mp hr with hr | hr
      · exact hok r hr
      · obtain rfl : r = ⟨normalize name, joinTags tags⟩ := by simpa using hr
        exact normalize_entry_ok name
  · unfold edit
    cases hget : get_from_db_by_name name w.db with
    | error e => exact hok
    | ok project =>
      cases nn with
      | none =>
        cases nt with
        | none => exact hok
        | some ts => exact namesOk_updateTags project.name (joinTags ts) hok
      | some n' =>
        show NamesOk (editRenameStep project n' nt w).2.db
        unfold editRenameStep
        rcases hres : edit_name project n' w with ⟨res, project₁, w₁⟩
        have hen := edit_name_db_ok project n' w hok
        rw [hres] at hen
        cases res with
        | error e => exact hen
        | ok s =>
          show NamesOk (editTagsStep project₁ nt w₁).2.db
          unfold editTagsStep
          cases nt with
          | none => exact hen
          | some ts => exact namesOk_updateTags project₁.name (joinTags ts) hen
  · intro hsp
    have hne : ∀ r ∈ w.db, ¬ (r.name = name) := by
      intro r hr hEq
      exact (hok r hr).1 (hEq ▸ hsp)
    have htaken : name_taken name w.db = false := by
      unfold name_taken
      rw [← Bool.not_eq_true, List.any_eq_true]
      rintro ⟨r, hr, hdec⟩
      exact hne r hr (of_decide_eq_true hdec)
    have hfind : w.db.find? (fun r => decide (r.name = name)) = none := by
      rw [List.find?_eq_none]
      intro r hr
      simpa using hne r hr
    refine ⟨?_, ?_, ?_⟩
    · unfold get_project_path get_from_db_by_name
      rw [hfind]
    · unfold remove_project
      rw [htaken]
      rfl
    · unfold edit get_from_db_by_name
      rw [hfind]

theorem writes_normalized_lookups_verbatim_witness :
    get_project_path ['a', ' ', 'b'] ⟨[⟨['o', 'k'], []⟩], []⟩ =
      .error .CouldNotGetProject ∧
    remove_project ['a', ' ', 'b'] ⟨[⟨['o', 'k'], []⟩], []⟩ =
      (.error .ProjectDoesNotExist, ⟨[⟨['o', 'k'], []⟩], []⟩) ∧
    edit ['a', ' ', 'b'] none none ⟨[⟨['o', 'k'], []⟩], []⟩ =
      (.error .CouldNotGetProject, ⟨[⟨['o', 'k'], []⟩], []⟩) :=
  (writes_normalized_lookups_verbatim ⟨[⟨['o', 'k'], []⟩], []⟩
    ['a', ' ', 'b'] none none [] (by decide)).2.2 (by decide)

end Pile
